import Mathlib

set_option maxRecDepth 8000

/- Shallow embedding of src/eolinuxify.py.

   Python strings are modelled as `List Char`.  The file contents handled by
   `has_any_crlf` and `fix_file` are modelled at the level of the decoded
   text: for the valid-UTF-8 byte strings the claims quantify over, Python's
   strict UTF-8 decode/encode round-trips the bytes exactly, and the byte
   pair 0x0D 0x0A occurs in the bytes iff the character pair CR LF occurs in
   the decoded text (0x0D and 0x0A never occur inside a multi-byte
   encoding), so byte-string equality coincides with `List Char` equality. -/

/-- Line-boundary characters recognised by Python `str.splitlines`. -/
def isLineSep (c : Char) : Bool :=
  c == '\n' || c == '\r' || c == '\x0b' || c == '\x0c' ||
  c == '\x1c' || c == '\x1d' || c == '\x1e' || c == '\x85' ||
  c == '\u2028' || c == '\u2029'

/-- Whitespace characters removed by Python `str.strip()`. -/
def isPySpace (c : Char) : Bool :=
  c == ' ' || c == '\t' || c == '\n' || c == '\x0b' || c == '\x0c' || c == '\r' ||
  c == '\x1c' || c == '\x1d' || c == '\x1e' || c == '\x1f' || c == '\x85' ||
  c == '\xa0' || c == '\u1680' ||
  c == '\u2000' || c == '\u2001' || c == '\u2002' || c == '\u2003' ||
  c == '\u2004' || c == '\u2005' || c == '\u2006' || c == '\u2007' ||
  c == '\u2008' || c == '\u2009' || c == '\u200a' ||
  c == '\u2028' || c == '\u2029' || c == '\u202f' || c == '\u205f' || c == '\u3000'

/-- Worker for `splitlines`: `acc` holds the current (reversed) line. -/
def splitlinesGo : List Char → List Char → List (List Char)
  | acc, [] => if acc = [] then [] else [acc.reverse]
  | acc, [a] => if isLineSep a then [acc.reverse] else [(a :: acc).reverse]
  | acc, a :: b :: rest =>
      if a = '\r' ∧ b = '\n' then acc.reverse :: splitlinesGo [] rest
      else if isLineSep a then acc.reverse :: splitlinesGo [] (b :: rest)
      else splitlinesGo (a :: acc) (b :: rest)

/-- Python `str.splitlines()` (no trailing empty line; CRLF counts once). -/
def splitlines (s : List Char) : List (List Char) :=
  splitlinesGo [] s

/-- Python `str.strip()`. -/
def pstrip (s : List Char) : List Char :=
  ((s.dropWhile isPySpace).reverse.dropWhile isPySpace).reverse

/-- Python `line.startswith("#")`. -/
def startsWithHash : List Char → Bool
  | '#' :: _ => true
  | _ => false

/-- Python `line.endswith(suf)` for a fixed suffix `suf`. -/
def endsWithChars (suf s : List Char) : Bool :=
  suf.reverse.isPrefixOf s.reverse

/-- Python `line[:-n]` for a line of length at least `n`. -/
def pyDropLast (n : Nat) (s : List Char) : List Char :=
  s.take (s.length - n)

/-- First wildcard-collapsing pass of `repair_gitignore_contents`:
    `line[:-3] if line.endswith("/**") or line.endswith("\\**") else line`. -/
def stripA1 (line : List Char) : List Char :=
  if endsWithChars ['/', '*', '*'] line || endsWithChars ['\\', '*', '*'] line then
    pyDropLast 3 line
  else line

/-- Second wildcard-collapsing pass of `repair_gitignore_contents`:
    `line[:-2] if line.endswith("/*") or line.endswith("\\*") else line`. -/
def stripB1 (line : List Char) : List Char :=
  if endsWithChars ['/', '*'] line || endsWithChars ['\\', '*'] line then
    pyDropLast 2 line
  else line

/-- The line list built by `repair_gitignore_contents` just before the final
    `"\n".join`: splitlines, strip each line, drop empties, drop comments,
    then the two successive suffix-stripping list comprehensions. -/
def repairLines (contents : List Char) : List (List Char) :=
  ((((splitlines contents).map pstrip).filter (fun l => !(l == []))).filter
      (fun l => !startsWithHash l)).map stripA1 |>.map stripB1

/-- Python `"\n".join(lines)`. -/
def joinNL : List (List Char) → List Char
  | [] => []
  | [l] => l
  | l :: ls => l ++ '\n' :: joinNL ls

/-- `repair_gitignore_contents` from src/eolinuxify.py, lines 11-44. -/
def repair_gitignore_contents (contents : List Char) : List Char :=
  joinNL (repairLines contents)

/-- Per-line transform as the specification words it for claim C3: the
    3-character strip, ELSE the 2-character strip (mutually exclusive). -/
def specLineExclusive (line : List Char) : List Char :=
  if endsWithChars ['/', '*', '*'] line || endsWithChars ['\\', '*', '*'] line then
    pyDropLast 3 line
  else if endsWithChars ['/', '*'] line || endsWithChars ['\\', '*'] line then
    pyDropLast 2 line
  else line

/-- The repairer as the specification describes it for claim C3 (with the
    two suffix strips mutually exclusive per line). -/
def repair_spec_exclusive (contents : List Char) : List Char :=
  joinNL (((((splitlines contents).map pstrip).filter (fun l => !(l == []))).filter
      (fun l => !startsWithHash l)).map specLineExclusive)

/-- Per-line transform of the amended claim C3: first the 3-character strip,
    then, on its result, the 2-character strip. -/
def specLineSequential (line : List Char) : List Char :=
  stripB1 (stripA1 line)

/-- The repairer as the amended claim C3 describes it (the two suffix strips
    applied in sequence on each line). -/
def repair_spec_sequential (contents : List Char) : List Char :=
  joinNL (((((splitlines contents).map pstrip).filter (fun l => !(l == []))).filter
      (fun l => !startsWithHash l)).map specLineSequential)

/-- The test `b"\r\n" in contents` of `has_any_crlf` (src/eolinuxify.py,
    lines 106-111), on the decoded content. -/
def has_any_crlf : List Char → Bool
  | a :: b :: rest => if a = '\r' ∧ b = '\n' then true else has_any_crlf (b :: rest)
  | _ => false

/-- The content transform of `fix_file` (src/eolinuxify.py, lines 114-119):
    Python `contents.replace("\r\n", "\n")`, a single left-to-right scan
    replacing non-overlapping occurrences. -/
def fix_file : List Char → List Char
  | [] => []
  | [c] => [c]
  | a :: b :: rest =>
      if a = '\r' ∧ b = '\n' then '\n' :: fix_file rest
      else a :: fix_file (b :: rest)

/-- Occurrence of the three-byte sequence CR CR LF, the exact condition
    under which one application of `fix_file` leaves a CRLF behind. -/
def hasCRCRLF : List Char → Bool
  | a :: b :: c :: rest =>
      if a = '\r' ∧ b = '\r' ∧ c = '\n' then true else hasCRCRLF (b :: c :: rest)
  | _ => false

theorem has_any_crlf_cons_of_ne (x : Char) (t : List Char) (hx : x ≠ '\r') :
    has_any_crlf (x :: t) = has_any_crlf t := by
  cases t with
  | nil => simp [has_any_crlf]
  | cons b r => simp [has_any_crlf, hx]

theorem hasCRCRLF_of_cons {x : Char} {t : List Char} (h : hasCRCRLF (x :: t) = false) :
    hasCRCRLF t = false := by
  cases t with
  | nil => simp [hasCRCRLF]
  | cons b r =>
    cases r with
    | nil => simp [hasCRCRLF]
    | cons c r' =>
      rw [hasCRCRLF] at h
      split at h
      · exact Bool.noConfusion h
      · exact h

theorem fix_file_cons_head {b : Char} {rest : List Char} {h0 : Char} {t0 : List Char}
    (h : fix_file (b :: rest) = h0 :: t0) (hh : h0 = '\n') :
    b = '\n' ∨ (b = '\r' ∧ rest.head? = some '\n') := by
  cases rest with
  | nil =>
    rw [fix_file] at h
    injection h with h1 _
    left; exact h1.trans hh
  | cons c r =>
    by_cases hc : b = '\r' ∧ c = '\n'
    · right; exact ⟨hc.1, by rw [hc.2]; rfl⟩
    · rw [fix_file, if_neg hc] at h
      injection h with h1 _
      left; exact h1.trans hh

theorem fix_file_eq_self_of_no_crlf : ∀ (s : List Char), has_any_crlf s = false → fix_file s = s
  | [], _ => rfl
  | [_], _ => rfl
  | a :: b :: rest, h => by
    by_cases hab : a = '\r' ∧ b = '\n'
    · rw [has_any_crlf, if_pos hab] at h
      exact Bool.noConfusion h
    · rw [has_any_crlf, if_neg hab] at h
      rw [fix_file, if_neg hab]
      exact congrArg (a :: ·) (fix_file_eq_self_of_no_crlf (b :: rest) h)

theorem has_any_crlf_fix_file :
    ∀ (s : List Char), hasCRCRLF s = false → has_any_crlf (fix_file s) = false
  | [], _ => rfl
  | [_], _ => rfl
  | a :: b :: rest, h => by
    by_cases hab : a = '\r' ∧ b = '\n'
    · rw [fix_file, if_pos hab]
      have h1 : hasCRCRLF rest = false := hasCRCRLF_of_cons (hasCRCRLF_of_cons h)
      have ih := has_any_crlf_fix_file rest h1
      rw [has_any_crlf_cons_of_ne '\n' _ (by decide)]
      exact ih
    · rw [fix_file, if_neg hab]
      have h1 : hasCRCRLF (b :: rest) = false := hasCRCRLF_of_cons h
      have ih := has_any_crlf_fix_file (b :: rest) h1
      by_cases ha : a = '\r'
      · rcases hfb : fix_file (b :: rest) with _ | ⟨h0, t0⟩
        · simp [has_any_crlf]
        · by_cases hh0 : h0 = '\n'
          · rcases fix_file_cons_head hfb hh0 with hb | ⟨hb, hr⟩
            · exact absurd ⟨ha, hb⟩ hab
            · exfalso
              rcases rest with _ | ⟨r0, r'⟩
              · exact Option.noConfusion hr
              · rw [hasCRCRLF, if_pos ⟨ha, hb, Option.some.inj hr⟩] at h
                exact Bool.noConfusion h
          · rw [has_any_crlf, if_neg (fun hc => hh0 hc.2)]
            rw [hfb] at ih
            exact ih
      · rw [has_any_crlf_cons_of_ne a _ ha]
        exact ih

/-- C1 (amended): for every valid-UTF-8 file content with no occurrence of
    the byte sequence CR CR LF, applying the `fix_file` normalization twice
    yields the same bytes as applying it once, and after one application
    `has_any_crlf` reports no CRLF occurrence. -/
theorem fix_file_idem_and_clean_of_no_crcrlf (s : List Char) (h : hasCRCRLF s = false) :
    fix_file (fix_file s) = fix_file s ∧ has_any_crlf (fix_file s) = false :=
  have h2 := has_any_crlf_fix_file s h
  ⟨fix_file_eq_self_of_no_crlf _ h2, h2⟩

theorem fix_file_idem_and_clean_witness :
    hasCRCRLF ['a', '\r', '\n', 'b'] = false ∧
      (fix_file (fix_file ['a', '\r', '\n', 'b']) = fix_file ['a', '\r', '\n', 'b'] ∧
        has_any_crlf (fix_file ['a', '\r', '\n', 'b']) = false) :=
  ⟨by decide, fix_file_idem_and_clean_of_no_crcrlf ['a', '\r', '\n', 'b'] (by decide)⟩

/-- C1 (counterexample): on the valid-UTF-8 content CR CR LF, one
    application of `fix_file` leaves a CRLF that `has_any_crlf` still
    reports, and a second application changes the bytes again. -/
theorem fix_file_not_idempotent_on_crcrlf :
    has_any_crlf (fix_file ['\r', '\r', '\n']) = true ∧
      fix_file (fix_file ['\r', '\r', '\n']) ≠ fix_file ['\r', '\r', '\n'] := by
  decide

/-- C4: for every valid-UTF-8 file content containing no CRLF sequence,
    the `fix_file` rewrite leaves the bytes identical to the original. -/
theorem fix_file_noop_of_no_crlf (s : List Char) (h : has_any_crlf s = false) :
    fix_file s = s :=
  fix_file_eq_self_of_no_crlf s h

theorem fix_file_noop_witness :
    has_any_crlf ['a', '\n', 'b'] = false ∧ fix_file ['a', '\n', 'b'] = ['a', '\n', 'b'] :=
  ⟨by decide, fix_file_noop_of_no_crlf ['a', '\n', 'b'] (by decide)⟩

theorem splitlinesGo_cons_of_not_sep (c : Char) (acc rest : List Char)
    (h : isLineSep c = false) :
    splitlinesGo acc (c :: rest) = splitlinesGo (c :: acc) rest := by
  have hc : c ≠ '\r' := by
    intro e; subst e; simp [isLineSep] at h
  cases rest with
  | nil => simp [splitlinesGo, h]
  | cons b r => simp [splitlinesGo, h, hc]

theorem splitlinesGo_newline (acc rest : List Char) :
    splitlinesGo acc ('\n' :: rest) = acc.reverse :: splitlinesGo [] rest := by
  cases rest with
  | nil =>
    simp only [splitlinesGo]
    rw [if_pos (by decide : isLineSep '\n' = true)]
    simp
  | cons b r =>
    rw [splitlinesGo, if_neg (fun hc => absurd hc.1 (by decide)),
      if_pos (by decide : isLineSep '\n' = true)]

theorem splitlinesGo_append (l : List Char) :
    ∀ (acc rest : List Char), l.all (fun c => !isLineSep c) = true →
      splitlinesGo acc (l ++ rest) = splitlinesGo (l.reverse ++ acc) rest := by
  induction l with
  | nil => intro acc rest _; rfl
  | cons c l' ih =>
    intro acc rest h
    rw [List.all_cons, Bool.and_eq_true] at h
    have hc : isLineSep c = false := by
      rcases h with ⟨h1, _⟩
      simpa using h1
    rw [List.cons_append, splitlinesGo_cons_of_not_sep c acc (l' ++ rest) hc,
      ih (c :: acc) rest h.2, List.reverse_cons, List.append_assoc]
    rfl

theorem splitlines_singleton (l : List Char) (hne : l ≠ [])
    (h : l.all (fun c => !isLineSep c) = true) : splitlines l = [l] := by
  have := splitlinesGo_append l [] [] h
  rw [List.append_nil] at this
  rw [splitlines, this, splitlinesGo, if_neg (by simpa using hne), List.reverse_append,
    List.reverse_reverse]
  rfl

theorem splitlines_joinNL :
    ∀ (ls : List (List Char)),
      (∀ L ∈ ls, L ≠ [] ∧ L.all (fun c => !isLineSep c) = true) →
      splitlines (joinNL ls) = ls
  | [], _ => rfl
  | [l], h =>
    splitlines_singleton l (h l (List.mem_cons_self l [])).1 (h l (List.mem_cons_self l [])).2
  | l :: l2 :: ls, h => by
    have hl := h l (List.mem_cons_self l (l2 :: ls))
    rw [joinNL, splitlines, splitlinesGo_append l [] ('\n' :: joinNL (l2 :: ls)) hl.2]
    rw [List.append_nil, splitlinesGo_newline, List.reverse_reverse]
    have ih := splitlines_joinNL (l2 :: ls) (fun L hL => h L (List.mem_cons_of_mem l hL))
    rw [splitlines] at ih
    rw [ih]
    simp

theorem map_eq_self_of_fix {α : Type} (f : α → α) :
    ∀ (l : List α), (∀ a ∈ l, f a = a) → l.map f = l
  | [], _ => rfl
  | a :: t, h => by
    rw [List.map_cons, h a (List.mem_cons_self a t),
      map_eq_self_of_fix f t (fun b hb => h b (List.mem_cons_of_mem a hb))]

theorem filter_eq_self_of_all {α : Type} (p : α → Bool) :
    ∀ (l : List α), (∀ a ∈ l, p a = true) → l.filter p = l
  | [], _ => rfl
  | a :: t, h => by
    have ha := h a (List.mem_cons_self a t)
    rw [List.filter_cons, if_pos ha,
      filter_eq_self_of_all p t (fun b hb => h b (List.mem_cons_of_mem a hb))]

/-- A list of repaired lines each of which the pipeline leaves untouched is
    recovered exactly from its `"\n"`-join. -/
theorem repairLines_joinNL (ls : List (List Char))
    (h : ∀ L ∈ ls, L ≠ [] ∧ pstrip L = L ∧ startsWithHash L = false ∧
        L.all (fun c => !isLineSep c) = true ∧ stripA1 L = L ∧ stripB1 L = L) :
    repairLines (joinNL ls) = ls := by
  unfold repairLines
  rw [splitlines_joinNL ls (fun L hL => ⟨(h L hL).1, (h L hL).2.2.2.1⟩)]
  rw [map_eq_self_of_fix pstrip ls (fun L hL => (h L hL).2.1)]
  rw [filter_eq_self_of_all _ ls (fun L hL => by simp [(h L hL).1])]
  rw [filter_eq_self_of_all _ ls (fun L hL => by simp [(h L hL).2.2.1])]
  rw [map_eq_self_of_fix stripA1 ls (fun L hL => (h L hL).2.2.2.2.1)]
  rw [map_eq_self_of_fix stripB1 ls (fun L hL => (h L hL).2.2.2.2.2)]

/-- C2 (amended): `repair_gitignore_contents` is idempotent on every input
    whose repaired line list is fully reduced: each processed line is
    non-empty, fixed by `strip`, not a comment, free of line-break
    characters, and not further reducible by either wildcard-suffix strip.
    (In general a second application strips further suffixes: see the
    counterexample `repair_not_idempotent`.) -/
theorem repair_idempotent_of_reduced (x : List Char)
    (h : ∀ L ∈ repairLines x, L ≠ [] ∧ pstrip L = L ∧ startsWithHash L = false ∧
        L.all (fun c => !isLineSep c) = true ∧ stripA1 L = L ∧ stripB1 L = L) :
    repair_gitignore_contents (repair_gitignore_contents x) = repair_gitignore_contents x := by
  show joinNL (repairLines (joinNL (repairLines x))) = joinNL (repairLines x)
  rw [repairLines_joinNL (repairLines x) h]

theorem repair_idempotent_witness :
    (∀ L ∈ repairLines ['a', '\n', '#', 'c', '\n', 'b'],
        L ≠ [] ∧ pstrip L = L ∧ startsWithHash L = false ∧
        L.all (fun c => !isLineSep c) = true ∧ stripA1 L = L ∧ stripB1 L = L) ∧
      repair_gitignore_contents
          (repair_gitignore_contents ['a', '\n', '#', 'c', '\n', 'b']) =
        repair_gitignore_contents ['a', '\n', '#', 'c', '\n', 'b'] :=
  ⟨by decide, repair_idempotent_of_reduced ['a', '\n', '#', 'c', '\n', 'b'] (by decide)⟩

/-- C2 (counterexample): on the input "a/*/*" the repairer strips one
    trailing `/*` per application, so it is not idempotent: one application
    yields "a/*", two applications yield "a". -/
theorem repair_not_idempotent :
    repair_gitignore_contents (repair_gitignore_contents ['a', '/', '*', '/', '*']) ≠
      repair_gitignore_contents ['a', '/', '*', '/', '*'] := by
  decide

/-- C3 (counterexample): on the line "a/*/**" the code strips the trailing
    `/**` and then ALSO strips the trailing `/*` of the result, producing
    "a", while the claimed mutually-exclusive processing would stop at
    "a/*". -/
theorem repair_differs_from_exclusive_spec :
    repair_gitignore_contents ['a', '/', '*', '/', '*', '*'] ≠
      repair_spec_exclusive ['a', '/', '*', '/', '*', '*'] := by
  decide

/-- C3 (amended): the repairer processes its input exactly as described
    with the two suffix strips applied in sequence per line (a line ending
    in `/**` or `\**` is stripped of those 3 characters, and the result is
    additionally stripped of 2 characters if it then ends in `/*` or `\*`);
    split, trim, empty-drop, comment-drop and the final `"\n"`-join are as
    described. -/
theorem repair_eq_sequential_spec (x : List Char) :
    repair_gitignore_contents x = repair_spec_sequential x := by
  show joinNL _ = joinNL _
  rw [repairLines, List.map_map]
  rfl

/-- POSIX path model: absolute flag plus a list of components (plain names,
    no separators).  The empty relative path stands both for Python's ""
    and for ".", which `chain_is_ignored` itself identifies (it rewrites
    "." to "" before testing emptiness). -/
structure PyPath where
  isAbs : Bool
  comps : List String
deriving DecidableEq

/-- `os.path.join(p, q)` on POSIX: an absolute second argument discards
    the first. -/
def pjoin (p q : PyPath) : PyPath :=
  if q.isAbs then q else PyPath.mk p.isAbs (p.comps ++ q.comps)

/-- `os.path.basename`. -/
def pbasename (p : PyPath) : String :=
  p.comps.getLast?.getD ""

def commonPrefixLen : List String → List String → Nat
  | a :: as, b :: bs => if a = b then commonPrefixLen as bs + 1 else 0
  | _, _ => 0

/-- `os.path.relpath(p, start)` for normalized component paths; returns
    the empty relative path where Python returns ".". -/
def pyrelpath (p start : PyPath) : PyPath :=
  let k := commonPrefixLen p.comps start.comps
  PyPath.mk false (List.replicate (start.comps.length - k) ".." ++ p.comps.drop k)

/-- The `rp` computed by `chain_is_ignored` (src/eolinuxify.py, line 48-50). -/
def chainRP (root last_dir : PyPath) : PyPath :=
  if last_dir.isAbs then pyrelpath last_dir root else last_dir

/-- `chain_is_ignored` from src/eolinuxify.py, lines 47-57. -/
def chain_is_ignored (root last_dir : PyPath) (previous current : PyPath → Bool) :
    PyPath → Bool :=
  fun x =>
    if chainRP root last_dir = PyPath.mk false [] then current x
    else previous (pjoin (chainRP root last_dir) x) || current x

theorem pyrelpath_isAbs (p s : PyPath) : (pyrelpath p s).isAbs = false := rfl

theorem path_eq_empty_iff (p : PyPath) (h : p.isAbs = false) :
    p = PyPath.mk false [] ↔ p.comps = [] := by
  rcases p with ⟨b, cs⟩
  simp only at h
  subst h
  simp

/-- Helper: the composed predicate, evaluated at any query, for an absolute
    `last_dir`. -/
theorem chain_is_ignored_eval (root last_dir : PyPath) (previous current : PyPath → Bool)
    (x : PyPath) (habs : last_dir.isAbs = true) :
    chain_is_ignored root last_dir previous current x =
      if (pyrelpath last_dir root).comps = [] then current x
      else previous (pjoin (pyrelpath last_dir root) x) || current x := by
  have hrp : chainRP root last_dir = pyrelpath last_dir root := by
    rw [chainRP, if_pos habs]
  rw [chain_is_ignored, hrp]
  by_cases hc : (pyrelpath last_dir root).comps = []
  · rw [if_pos ((path_eq_empty_iff _ (pyrelpath_isAbs _ _)).mpr hc), if_pos hc]
  · rw [if_neg (fun he => hc ((path_eq_empty_iff _ (pyrelpath_isAbs _ _)).mp he)), if_neg hc]

theorem pjoin_abs (rp x : PyPath) (hx : x.isAbs = true) : pjoin rp x = x := by
  rw [pjoin, if_pos hx]

/-- C7: the predicate returned by `chain_is_ignored` satisfies, for every
    queried path `x`: if the directory's path `rp` relative to the root is
    empty, the result is `current x`; otherwise it is
    `previous (join rp x) || current x`. -/
theorem chain_is_ignored_spec (root last_dir : PyPath) (previous current : PyPath → Bool)
    (x : PyPath) (habs : last_dir.isAbs = true) :
    chain_is_ignored root last_dir previous current x =
      if (pyrelpath last_dir root).comps = [] then current x
      else previous (pjoin (pyrelpath last_dir root) x) || current x :=
  chain_is_ignored_eval root last_dir previous current x habs

theorem chain_is_ignored_spec_witness :
    (PyPath.mk true ["r", "s"]).isAbs = true ∧
      chain_is_ignored (PyPath.mk true ["r"]) (PyPath.mk true ["r", "s"])
          (fun _ => false) (fun _ => true) (PyPath.mk true ["r", "s", "f"]) =
        if (pyrelpath (PyPath.mk true ["r", "s"]) (PyPath.mk true ["r"])).comps = [] then
          (fun (_ : PyPath) => true) (PyPath.mk true ["r", "s", "f"])
        else
          (fun (_ : PyPath) => false)
              (pjoin (pyrelpath (PyPath.mk true ["r", "s"]) (PyPath.mk true ["r"]))
                (PyPath.mk true ["r", "s", "f"])) ||
            (fun (_ : PyPath) => true) (PyPath.mk true ["r", "s", "f"]) :=
  ⟨rfl, chain_is_ignored_spec _ _ _ _ _ rfl⟩

/-- C9: `os.path.join` with an absolute right operand returns the right
    operand unchanged, so for the absolute paths the walker passes in, the
    chained predicate built for a non-root directory evaluates to
    `previous x || current x`. -/
theorem chain_absolute_noop (rp root last_dir : PyPath) (previous current : PyPath → Bool)
    (x : PyPath) (hx : x.isAbs = true) (habs : last_dir.isAbs = true)
    (hne : (pyrelpath last_dir root).comps ≠ []) :
    pjoin rp x = x ∧
      chain_is_ignored root last_dir previous current x = (previous x || current x) := by
  refine ⟨pjoin_abs rp x hx, ?_⟩
  rw [chain_is_ignored_eval root last_dir previous current x habs, if_neg hne,
    pjoin_abs _ x hx]

theorem chain_absolute_noop_witness :
    (PyPath.mk true ["r", "s", "f"]).isAbs = true ∧
      (PyPath.mk true ["r", "s"]).isAbs = true ∧
      (pyrelpath (PyPath.mk true ["r", "s"]) (PyPath.mk true ["r"])).comps ≠ [] ∧
      (pjoin (PyPath.mk false ["q"]) (PyPath.mk true ["r", "s", "f"]) =
          PyPath.mk true ["r", "s", "f"] ∧
        chain_is_ignored (PyPath.mk true ["r"]) (PyPath.mk true ["r", "s"])
            (fun _ => false) (fun _ => true) (PyPath.mk true ["r", "s", "f"]) =
          ((fun (_ : PyPath) => false) (PyPath.mk true ["r", "s", "f"]) ||
            (fun (_ : PyPath) => true) (PyPath.mk true ["r", "s", "f"]))) :=
  ⟨rfl, rfl, by decide,
    chain_absolute_noop (PyPath.mk false ["q"]) _ _ _ _ _ rfl rfl (by decide)⟩

/-- Abstract file-system tree.  A directory node carries the predicate that
    the external gitignore-matching library would compile from its repaired
    `.gitignore` contents (already composed with the temporary-file path
    plumbing of `get_included_files`); the walker consults it only when the
    directory's listing actually contains an entry named ".gitignore", and
    applies it to the tested entry's path relative to the root. -/
inductive FS where
  | file (name : String) : FS
  | dir (name : String) (ig : PyPath → Bool) (entries : List FS) : FS

def fsName : FS → String
  | .file n => n
  | .dir n _ _ => n

/-- The local ignore predicate built at one directory level
    (src/eolinuxify.py, lines 64-88): with a `.gitignore` present it is
    `basename x == ".git" or ignorer(...)`, otherwise just the `.git`
    test. -/
def currentPred (root : PyPath) (hasGI : Bool) (ig : PyPath → Bool) : PyPath → Bool :=
  if hasGI then fun x => pbasename x == ".git" || ig (pyrelpath x root)
  else fun x => pbasename x == ".git"

mutual
/-- The entry loop of `get_included_files` (src/eolinuxify.py, lines
    89-99) over a directory listing. -/
def walkEntries (root cwd : PyPath) (isIg : PyPath → Bool) : List FS → List PyPath
  | [] => []
  | e :: es => walkEntry root cwd isIg e ++ walkEntries root cwd isIg es

/-- Handling of one directory entry: an entry matched by the effective
    predicate is skipped entirely; a surviving subdirectory is entered with
    the chained predicate; a surviving file contributes its root-relative
    path. -/
def walkEntry (root cwd : PyPath) (isIg : PyPath → Bool) : FS → List PyPath
  | .file n =>
      if isIg (pjoin cwd (PyPath.mk false [n])) then []
      else [pyrelpath (pjoin cwd (PyPath.mk false [n])) root]
  | .dir n ig es =>
      if isIg (pjoin cwd (PyPath.mk false [n])) then []
      else
        walkEntries root (pjoin cwd (PyPath.mk false [n]))
          (chain_is_ignored root (pjoin cwd (PyPath.mk false [n])) isIg
            (currentPred root (es.any (fun e => fsName e == ".gitignore")) ig))
          es
end

/-- `get_included_files` from src/eolinuxify.py, lines 60-103, walking a
    tree rooted at `root` whose top-level listing is `entries`; `rootIg` is
    the compiled predicate of the root's own `.gitignore`, when present. -/
def get_included_files (root : PyPath) (rootIg : PyPath → Bool) (entries : List FS) :
    List PyPath :=
  walkEntries root root
    (chain_is_ignored root root (fun x => decide (x = PyPath.mk false [".git"]))
      (currentPred root (entries.any (fun e => fsName e == ".gitignore")) rootIg))
    entries

/-- A predicate that flags every path whose basename is ".git"; every
    effective predicate the walker builds has this property. -/
def GitCatch (g : PyPath → Bool) : Prop :=
  ∀ x : PyPath, pbasename x = ".git" → g x = true

theorem gitcatch_currentPred (root : PyPath) (hasGI : Bool) (ig : PyPath → Bool) :
    GitCatch (currentPred root hasGI ig) := by
  intro x hx
  rw [currentPred]
  cases hasGI with
  | false => simp [hx]
  | true => simp [hx]

theorem gitcatch_chain (root last_dir : PyPath) (previous current : PyPath → Bool)
    (h : GitCatch current) : GitCatch (chain_is_ignored root last_dir previous current) := by
  intro x hx
  rw [chain_is_ignored]
  by_cases hc : chainRP root last_dir = PyPath.mk false []
  · rw [if_pos hc]; exact h x hx
  · rw [if_neg hc, h x hx, Bool.or_true]

theorem commonPrefixLen_append (rc r : List String) :
    commonPrefixLen (rc ++ r) rc = rc.length := by
  induction rc with
  | nil => cases r <;> rfl
  | cons a rc' ih => simp [commonPrefixLen, ih]

theorem pyrelpath_append (b : Bool) (s : PyPath) (r : List String) :
    pyrelpath (PyPath.mk b (s.comps ++ r)) s = PyPath.mk false r := by
  rw [pyrelpath]
  simp [commonPrefixLen_append, List.drop_left]

theorem pjoin_single (b : Bool) (cs : List String) (n : String) :
    pjoin (PyPath.mk b cs) (PyPath.mk false [n]) = PyPath.mk b (cs ++ [n]) := rfl

theorem pbasename_append (b : Bool) (cs : List String) (n : String) :
    pbasename (PyPath.mk b (cs ++ [n])) = n := by
  simp [pbasename]

mutual
theorem no_git_walkEntries : ∀ (es : List FS) (root : PyPath) (rel : List String)
    (isIg : PyPath → Bool), GitCatch isIg → ".git" ∉ rel →
    ∀ p ∈ walkEntries root (PyPath.mk root.isAbs (root.comps ++ rel)) isIg es,
      ".git" ∉ p.comps
  | [], _, _, _, _, _, p, hp => by simp [walkEntries] at hp
  | e :: es, root, rel, isIg, hG, hrel, p, hp => by
    rw [walkEntries] at hp
    rcases List.mem_append.mp hp with h | h
    · exact no_git_walkEntry e root rel isIg hG hrel p h
    · exact no_git_walkEntries es root rel isIg hG hrel p h

theorem no_git_walkEntry : ∀ (e : FS) (root : PyPath) (rel : List String)
    (isIg : PyPath → Bool), GitCatch isIg → ".git" ∉ rel →
    ∀ p ∈ walkEntry root (PyPath.mk root.isAbs (root.comps ++ rel)) isIg e,
      ".git" ∉ p.comps
  | FS.file n, root, rel, isIg, hG, hrel, p, hp => by
    rw [walkEntry, pjoin_single] at hp
    by_cases hig : isIg (PyPath.mk root.isAbs ((root.comps ++ rel) ++ [n])) = true
    · rw [if_pos hig] at hp
      simp at hp
    · rw [if_neg hig] at hp
      have hn : n ≠ ".git" := by
        intro he
        exact hig (hG _ (by rw [pbasename_append]; exact he))
      rw [List.append_assoc, pyrelpath_append] at hp
      rw [List.mem_singleton] at hp
      subst hp
      intro hmem
      rcases List.mem_append.mp hmem with h1 | h1
      · exact hrel h1
      · rw [List.mem_singleton] at h1
        exact hn h1.symm
  | FS.dir n ig es, root, rel, isIg, hG, hrel, p, hp => by
    rw [walkEntry, pjoin_single] at hp
    by_cases hig : isIg (PyPath.mk root.isAbs ((root.comps ++ rel) ++ [n])) = true
    · rw [if_pos hig] at hp
      simp at hp
    · rw [if_neg hig] at hp
      have hn : n ≠ ".git" := by
        intro he
        exact hig (hG _ (by rw [pbasename_append]; exact he))
      rw [List.append_assoc] at hp
      exact no_git_walkEntries es root (rel ++ [n])
        (chain_is_ignored root (PyPath.mk root.isAbs (root.comps ++ (rel ++ [n]))) isIg
          (currentPred root (es.any (fun e => fsName e == ".gitignore")) ig))
        (gitcatch_chain _ _ _ _ (gitcatch_currentPred _ _ _))
        (fun hmem => by
          rcases List.mem_append.mp hmem with h1 | h1
          · exact hrel h1
          · rw [List.mem_singleton] at h1
            exact hn h1.symm)
        p hp
end

/-- C5: for every input tree and every ignore predicate, no path containing
    a component named ".git" ever appears in the output of
    `get_included_files`: such entries are skipped at every level, whether
    files or directories. -/
theorem get_included_files_no_git (root : PyPath) (rootIg : PyPath → Bool)
    (entries : List FS) (p : PyPath) (hp : p ∈ get_included_files root rootIg entries) :
    ".git" ∉ p.comps := by
  rcases root with ⟨b, cs⟩
  rw [get_included_files] at hp
  exact no_git_walkEntries entries (PyPath.mk b cs) []
    (chain_is_ignored (PyPath.mk b cs) (PyPath.mk b cs)
      (fun x => decide (x = PyPath.mk false [".git"]))
      (currentPred (PyPath.mk b cs) (entries.any (fun e => fsName e == ".gitignore"))
        rootIg))
    (gitcatch_chain _ _ _ _ (gitcatch_currentPred _ _ _)) (by simp) p (by simpa using hp)

theorem get_included_files_no_git_witness :
    PyPath.mk false ["a"] ∈
        get_included_files (PyPath.mk true ["r"]) (fun _ => false) [FS.file "a"] ∧
      ".git" ∉ (PyPath.mk false ["a"]).comps :=
  ⟨by decide,
    get_included_files_no_git (PyPath.mk true ["r"]) (fun _ => false) [FS.file "a"]
      (PyPath.mk false ["a"]) (by decide)⟩

/-- C6: an entry matched by the current level's effective ignore predicate
    is skipped entirely — the walk of a listing containing it equals the
    walk of the listing without it, so if it is a directory the recursion
    never descends into it and nothing under it (whatever its own ignore
    files would say) appears anywhere in the walker's output. -/
theorem ignored_entry_pruned (root cwd : PyPath) (isIg : PyPath → Bool) (e : FS)
    (l1 l2 : List FS) (h : isIg (pjoin cwd (PyPath.mk false [fsName e])) = true) :
    walkEntries root cwd isIg (l1 ++ e :: l2) = walkEntries root cwd isIg (l1 ++ l2) := by
  induction l1 with
  | nil =>
    simp only [List.nil_append]
    rw [walkEntries]
    have he : walkEntry root cwd isIg e = [] := by
      cases e with
      | file n => rw [walkEntry, if_pos (by exact h)]
      | dir n ig es => rw [walkEntry, if_pos (by exact h)]
    rw [he, List.nil_append]
  | cons a l1' ih =>
    simp only [List.cons_append]
    rw [walkEntries, walkEntries, ih]

theorem ignored_entry_pruned_witness :
    (fun x => pbasename x == "skipme")
        (pjoin (PyPath.mk true ["r"])
          (PyPath.mk false [fsName (FS.dir "skipme" (fun _ => false) [FS.file "x"])])) =
        true ∧
      walkEntries (PyPath.mk true ["r"]) (PyPath.mk true ["r"])
          (fun x => pbasename x == "skipme")
          ([FS.file "a"] ++
            FS.dir "skipme" (fun _ => false) [FS.file "x"] :: [FS.file "b"]) =
        walkEntries (PyPath.mk true ["r"]) (PyPath.mk true ["r"])
          (fun x => pbasename x == "skipme") ([FS.file "a"] ++ [FS.file "b"]) :=
  ⟨by decide, ignored_entry_pruned _ _ _ _ _ _ (by decide)⟩

/-- The CRLF scan loop of `main` (src/eolinuxify.py, lines 165-171).
    `check` abstracts the `has_any_crlf(CWD, file)` call, whose outcome per
    file is either a boolean or a raised exception (`Except.error` carries
    `str(e)`).  The result is the `found_crlf` list paired with the list of
    printed error messages, in loop order. -/
def scanLoop (check : String → Except String Bool) :
    List String → List String × List String
  | [] => ([], [])
  | f :: rest =>
    let r := scanLoop check rest
    match check f with
    | Except.ok b => (if b then f :: r.1 else r.1, r.2)
    | Except.error e => (r.1, e :: r.2)

theorem scanLoop_append (check : String → Except String Bool) :
    ∀ (l1 l2 : List String),
      scanLoop check (l1 ++ l2) =
        ((scanLoop check l1).1 ++ (scanLoop check l2).1,
          (scanLoop check l1).2 ++ (scanLoop check l2).2)
  | [], l2 => by simp [scanLoop]
  | f :: l1, l2 => by
    rw [List.cons_append, scanLoop, scanLoop, scanLoop_append check l1 l2]
    rcases check f with e | b
    · rfl
    · cases b <;> rfl

/-- C8: an exception raised while scanning one file only prints a message
    and drops that file from the CRLF list; every other file is processed
    exactly as before and the loop runs to completion. -/
theorem scan_error_skips_one_file (check : String → Except String Bool)
    (l1 l2 : List String) (f e : String) (h : check f = Except.error e) :
    (scanLoop check (l1 ++ f :: l2)).1 = (scanLoop check (l1 ++ l2)).1 ∧
      (scanLoop check (l1 ++ f :: l2)).2 =
        (scanLoop check l1).2 ++ e :: (scanLoop check l2).2 := by
  have hmid : scanLoop check (f :: l2) =
      ((scanLoop check l2).1, e :: (scanLoop check l2).2) := by
    rw [scanLoop, h]
  constructor
  · rw [scanLoop_append check l1 (f :: l2), scanLoop_append check l1 l2, hmid]
  · rw [scanLoop_append check l1 (f :: l2), hmid]

theorem scan_error_skips_one_file_witness :
    (fun (_ : String) => (Except.error "boom" : Except String Bool)) "bad" =
        Except.error "boom" ∧
      ((scanLoop (fun _ => Except.error "boom") (["a"] ++ "bad" :: ["b"])).1 =
          (scanLoop (fun _ => Except.error "boom") (["a"] ++ ["b"])).1 ∧
        (scanLoop (fun _ => Except.error "boom") (["a"] ++ "bad" :: ["b"])).2 =
          (scanLoop (fun _ => Except.error "boom") ["a"]).2 ++
            "boom" :: (scanLoop (fun _ => Except.error "boom") ["b"]).2) :=
  ⟨rfl, scan_error_skips_one_file (fun _ => Except.error "boom") ["a"] ["b"] "bad" "boom" rfl⟩

/-- JSON values, as far as the configuration handling needs them. -/
inductive JVal where
  | jnull : JVal
  | jbool (b : Bool) : JVal
  | jnum (n : Int) : JVal
  | jstr (s : String) : JVal
  | jarr (items : List JVal) : JVal
  | jobj (fields : List (String × JVal)) : JVal

/-- Python `dict.get(k, default)` on a JSON object given as a key-value
    list (later duplicates override earlier ones, as in `json.load`). -/
def dictGet (fields : List (String × JVal)) (k : String) (default : JVal) : JVal :=
  match fields.reverse.find? (fun kv => kv.1 == k) with
  | some kv => kv.2
  | none => default

/-- `get_config` from src/eolinuxify.py, lines 122-128: the parsed JSON
    object when the configuration file exists, else `{"exclude": []}`. -/
def get_config (configFileExists : Bool) (parsed : List (String × JVal)) :
    List (String × JVal) :=
  if configFileExists then parsed else [("exclude", JVal.jarr [])]

/-- The list a Python `for pattern in exclude` iterates over when
    `exclude` came from a JSON array (or the `[]` default). -/
def jarrItems : JVal → List JVal
  | JVal.jarr items => items
  | _ => []

/-- The exclusion filter of `main` (src/eolinuxify.py, lines 160-164);
    `matchedByGlob` abstracts `is_matched_by_glob(CWD, file, pattern)`. -/
def filterIncluded (matchedByGlob : String → JVal → Bool) (files : List String)
    (exclude : List JVal) : List String :=
  files.filter (fun f => !(exclude.any (fun pat => matchedByGlob f pat)))

/-- C10: when the configuration file exists and parses to an object without
    an "exclude" key, `get_config` returns that object unchanged, `main`'s
    `config.get("exclude", [])` falls back to the empty list, the discovered
    file list passes through the exclusion filter unchanged, and the
    effective exclude list is the same as when the file is absent. -/
theorem get_config_missing_exclude (parsed : List (String × JVal)) (files : List String)
    (matchedByGlob : String → JVal → Bool)
    (h : ∀ kv ∈ parsed, kv.1 ≠ "exclude") :
    get_config true parsed = parsed ∧
      dictGet (get_config true parsed) "exclude" (JVal.jarr []) = JVal.jarr [] ∧
      filterIncluded matchedByGlob files
          (jarrItems (dictGet (get_config true parsed) "exclude" (JVal.jarr []))) =
        files ∧
      dictGet (get_config true parsed) "exclude" (JVal.jarr []) =
        dictGet (get_config false parsed) "exclude" (JVal.jarr []) := by
  have hget : get_config true parsed = parsed := rfl
  have hfind : parsed.reverse.find? (fun kv => kv.1 == "exclude") = none := by
    rw [List.find?_eq_none]
    intro kv hkv
    simp [h kv (List.mem_reverse.mp hkv)]
  have hdict : dictGet parsed "exclude" (JVal.jarr []) = JVal.jarr [] := by
    rw [dictGet, hfind]
  refine ⟨hget, by rw [hget, hdict], ?_, by rw [hget, hdict]; rfl⟩
  rw [hget, hdict]
  show files.filter (fun f => !(List.any [] (fun pat => matchedByGlob f pat))) = files
  simp

theorem get_config_missing_exclude_witness :
    (∀ kv ∈ [("other", JVal.jnum 1)], kv.1 ≠ "exclude") ∧
      (get_config true [("other", JVal.jnum 1)] = [("other", JVal.jnum 1)] ∧
        dictGet (get_config true [("other", JVal.jnum 1)]) "exclude" (JVal.jarr []) =
          JVal.jarr [] ∧
        filterIncluded (fun _ _ => true) ["a", "b"]
            (jarrItems
              (dictGet (get_config true [("other", JVal.jnum 1)]) "exclude"
                (JVal.jarr []))) =
          ["a", "b"] ∧
        dictGet (get_config true [("other", JVal.jnum 1)]) "exclude" (JVal.jarr []) =
          dictGet (get_config false [("other", JVal.jnum 1)]) "exclude" (JVal.jarr [])) :=
  ⟨by simp, get_config_missing_exclude [("other", JVal.jnum 1)] ["a", "b"]
    (fun _ _ => true) (by simp)⟩
